import Mathlib

/-!
# A verification development for `nuget-rs`

A shallow embedding of the repository's sources, with theorems about them:

* `src/nuget/pack.rs` — the package assembler `pack`, its helpers
  `write_lib`, `write_rels`, `write_content_types`, and the error types
  `NugetPackError` / `NugetWriteLibError`;
* `src/cargo/parse.rs` — `parse_toml` and `ensure_crate_is_dylib` over
  parsed TOML values.

Conventions of the embedding:

* Byte buffers (`Buf`, `Vec<u8>`, file contents) are `List Nat`.
* The file system seen by `File::open` + `copy` is a function
  `String → Option (List Nat)`: `none` means the open fails (the file is
  missing or unreadable), `some b` means the whole file reads as `b`.
* Rust `PathBuf` values are '/'-separated strings (the Unix convention;
  `to_string_lossy` on such paths is the identity).  The component
  normalisation Rust applies to `.`, `..` and trailing separators when it
  computes `file_name` is not reproduced; the paths the claims exercise
  are plain relative file paths where the two agree.
* The zip archive produced by `ZipWriter` is abstracted to the sequence
  of entries written to it, each with its internal path, payload and
  compression method; `finish()` returns that sequence.  The deflate
  byte stream itself is outside the model.
* Rust `Result`, and the `?` operator, become `Except` with explicit
  matches; `quick_error!` enums become inductives.  Error payloads that
  are opaque foreign values (`std::io::Error`, `zip::result::ZipError`,
  the xml error) are modelled as bare constructors.
* The `HashMap<Target, Cow<Path>>` of `NugetPackArgs.cargo_libs` is an
  association list; the list order models the map's iteration order
  (which for a `HashMap` is arbitrary), and the map's key uniqueness is
  a `Nodup` hypothesis where a theorem needs it.
-/

namespace NugetRs

/-- A byte buffer (`Buf` / `Vec<u8>`): the repository's `Buf` newtype is
declared outside `src/`; the spec calls it an opaque byte buffer. -/
abbrev Buf := List Nat

/-- The file system: what `File::open` + io `copy` yield per path string. -/
abbrev FS := String → Option Buf

/-! ## The target registry (spec §2, §3, §4.1)

Modelled from the spec: the `Target` enumeration and its methods live in
the repository's `args` module, which is not among the staged source
files.  The spec describes a closed set of supported platform
identifiers plus an `Unknown` sentinel that is never packageable, each
supported one mapping to a canonical runtime-identifier string; its
concrete scenario names `WindowsX64 ↦ "win-x64"` and
`LinuxX64 ↦ "linux-x64"`. -/

/-- Modelled from the spec: the closed platform enumeration of the `args`
module (not under `src/`), restricted to the targets the spec names,
plus the `Unknown` sentinel. -/
inductive Target
| WindowsX64
| LinuxX64
| Unknown
deriving DecidableEq, Repr

/-- Modelled from the spec: `Target::is_unknown`, true exactly on the
sentinel. -/
def Target.is_unknown : Target → Bool
| Target.Unknown => true
| _ => false

/-- Modelled from the spec: `Target::rid`, the canonical
runtime-identifier string of a packageable target.  The registry defines
no identifier for `Unknown` (the assembler filters it out before asking);
the model returns `""` there, a value no theorem relies on. -/
def Target.rid : Target → String
| Target.WindowsX64 => "win-x64"
| Target.LinuxX64 => "linux-x64"
| Target.Unknown => ""

/-! ## Paths (`std::path`, Unix convention, over `List Char`) -/

/-- `PathBuf::push` of one segment ('/' separator): an absolute segment
replaces the path, a push onto an empty path is the segment alone,
otherwise a separator and the segment are appended. -/
def pathPushC (p seg : List Char) : List Char :=
if seg.head? = some '/' then seg
else if p = [] then seg
else p ++ '/' :: seg

/-- The file-name portion of a path: the characters after the last '/'
(the whole path when it has no '/'). -/
def fileNameC (p : List Char) : List Char :=
(p.reverse.takeWhile (fun c => c ≠ '/')).reverse

/-- The directory portion: everything up to and including the last '/'. -/
def dirC (p : List Char) : List Char :=
p.take (p.length - (fileNameC p).length)

/-- `Path::extension` on a file name: the portion after the last '.';
`none` when there is no '.' or the only '.' leads the name (a dotfile). -/
def extC (name : List Char) : Option (List Char) :=
let revTail := name.reverse.takeWhile (fun c => c ≠ '.')
if revTail.length = name.length then none
else if revTail.length = name.length - 1 ∧ name.head? = some '.' then none
else some revTail.reverse

/-- `Path::file_stem` on a file name: the name with its extension and the
final '.' removed (the whole name when there is no extension). -/
def stemC (name : List Char) : List Char :=
match extC name with
| none => name
| some e => name.take (name.length - e.length - 1)

/-- `PathBuf::set_extension` on a '/'-separated path: rewrites the file
name to its stem followed by '.' and the new extension (just the stem
when the new extension is empty); a path with an empty file name is left
unchanged (Rust returns `false` there). -/
def pathSetExtC (p e : List Char) : List Char :=
let name := fileNameC p
if name = [] then p
else dirC p ++ stemC name ++ (if e = [] then [] else '.' :: e)

/-- String wrapper for `pathPushC`. -/
def pathPush (p seg : String) : String := String.mk (pathPushC p.data seg.data)

/-- String wrapper for `Path::extension` of a path. -/
def pathExt (p : String) : Option String := (extC (fileNameC p.data)).map String.mk

/-- String wrapper for `pathSetExtC`. -/
def pathSetExt (p e : String) : String := String.mk (pathSetExtC p.data e.data)

/-! ## The archive model -/

/-- The compression methods of the zip layer that this crate mentions. -/
inductive CompressionMethod
| Deflated
| Stored
deriving DecidableEq, Repr

/-- `fn options() -> FileOptions`: the one fixed per-entry option set,
`FileOptions::default().compression_method(CompressionMethod::Deflated)`,
abstracted to the compression method it fixes. -/
def options : CompressionMethod := CompressionMethod.Deflated

/-- An entry payload.  Modelled from the spec for the two descriptor
documents: `openxml::relationships` and `openxml::content_types` live in
`src/nuget/util`, which is not among the staged source files; the spec
says the relationships document is a pure function of the manifest's
internal path and the content-types document is fixed, so their byte
renderings are kept opaque, parameterised exactly by those inputs. -/
inductive Payload
| relsXml (manifestPath : String)
| contentTypesXml
| bytes (b : Buf)
deriving DecidableEq, Repr

/-- One written archive entry: internal path, payload, compression. -/
structure Entry where
  path : String
  payload : Payload
  method : CompressionMethod
deriving DecidableEq, Repr

/-- The error of the xml formatting layer (opaque foreign type). -/
inductive XmlError
| fault
deriving DecidableEq, Repr

/-- Modelled from the spec: `openxml::relationships` (not under `src/`)
returns the relationships document entry for the given manifest path:
internal path `_rels/.rels`, payload a pure function of the manifest
path.  The spec's only failure ("the manifest path cannot be represented
as the schema's required relative reference") is not reachable for the
string paths of this model, so the result is always `ok`. -/
def relationships (nuspecPath : String) : Except XmlError (String × Payload) :=
Except.ok ("_rels/.rels", Payload.relsXml nuspecPath)

/-- Modelled from the spec: `openxml::content_types` (not under `src/`)
returns the fixed content-types document entry at
`[Content_Types].xml`. -/
def content_types : Except XmlError (String × Payload) :=
Except.ok ("[Content_Types].xml", Payload.contentTypesXml)

/-! ## `src/nuget/pack.rs` -/

/-- `NugetPackArgs`: id, version, the rendered nuspec buffer, and the
`HashMap<Target, Cow<Path>>` of native libraries as an association list
in the map's iteration order. -/
structure NugetPackArgs where
  id : String
  version : String
  spec : Buf
  cargo_libs : List (Target × String)
deriving DecidableEq, Repr

/-- `Nupkg`: the generated file name, the runtime identifiers actually
included, and the finished archive buffer (abstracted to its entries). -/
structure Nupkg where
  name : String
  rids : List String
  entries : List Entry
deriving DecidableEq, Repr

/-- `NugetWriteLibError` of `pack.rs` (foreign payloads opaque). -/
inductive NugetWriteLibError
| Zip
| Io
| BadPath (path : String)
deriving DecidableEq, Repr

/-- `NugetPackError` of `pack.rs` (foreign payloads opaque). -/
inductive NugetPackError
| NoValidTargets
| Zip
| Io
| Xml (err : XmlError)
| WriteLib (rid : String) (lib_path : String) (err : NugetWriteLibError)
deriving DecidableEq, Repr

/-- The filter/map at the head of `pack` (`pack.rs` lines 37–46): drop
unknown targets, map each survivor to `(target.rid(), path)`, in the
map's iteration order. -/
def filteredPkgs (cargo_libs : List (Target × String)) : List (String × String) :=
cargo_libs.filterMap
  (fun tp => if tp.1.is_unknown then none else some (tp.1.rid, tp.2))

/-- The nuspec path of `pack` (`pack.rs` lines 54–60): an empty
`PathBuf`, `set_file_name(id)` (a push, since the empty path has no file
name), then `set_extension("nuspec")`. -/
def nuspecPathOf (id : String) : String :=
pathSetExt (pathPush "" id) "nuspec"

/-- The internal path `write_lib` builds (`pack.rs` lines 100–108):
push `runtimes`, the rid, `native`, the id; then, when the source
library path has an extension, `set_extension` with it. -/
def libEntryPath (id rid lib_path : String) : String :=
let base := pathPush (pathPush (pathPush (pathPush "" "runtimes") rid) "native") id
match pathExt lib_path with
| some e => pathSetExt base e
| none => base

/-- `write_lib` (`pack.rs` lines 91–116): start the entry at the built
path with the fixed options, open the source file and stream it in.  In
the model `start_file` on the in-memory writer does not fail; a missing
or unreadable source file is the `Io` failure of `File::open`. -/
def write_lib (fs : FS) (id rid lib_path : String) : Except NugetWriteLibError Entry :=
match fs lib_path with
| none => Except.error NugetWriteLibError.Io
| some b => Except.ok (Entry.mk (libEntryPath id rid lib_path) (Payload.bytes b) options)

/-- The per-target loop of `pack` (`pack.rs` lines 68–76): write each
library entry in order; the first failure is wrapped as
`WriteLib { rid, lib_path, err }` and aborts the rest. -/
def writeLibs (fs : FS) (id : String) : List (String × String) → Except NugetPackError (List Entry)
| [] => Except.ok []
| (rid, lib_path) :: rest =>
  match write_lib fs id rid lib_path with
  | Except.error e => Except.error (NugetPackError.WriteLib rid lib_path e)
  | Except.ok entry =>
    match writeLibs fs id rest with
    | Except.error e => Except.error e
    | Except.ok es => Except.ok (entry :: es)

/-- `pack` (`pack.rs` lines 36–88): filter the targets; fail with
`NoValidTargets` when none survive (before the writer is opened and
before any file is touched); write the relationships entry, the
content-types entry, the nuspec entry (the supplied buffer verbatim),
then one entry per surviving target; finish the writer and return the
`Nupkg` with name `{id}.{version}.nupkg` and the rids of the filtered
set, in the same order. -/
def pack (fs : FS) (args : NugetPackArgs) : Except NugetPackError Nupkg :=
let pkgs := filteredPkgs args.cargo_libs
if pkgs.length = 0 then Except.error NugetPackError.NoValidTargets
else
  let nuspec_path := nuspecPathOf args.id
  match relationships nuspec_path with
  | Except.error e => Except.error (NugetPackError.Xml e)
  | Except.ok rels =>
    match content_types with
    | Except.error e => Except.error (NugetPackError.Xml e)
    | Except.ok ct =>
      match writeLibs fs args.id pkgs with
      | Except.error e => Except.error e
      | Except.ok libEntries =>
        Except.ok
          { name := args.id ++ "." ++ args.version ++ ".nupkg"
            rids := pkgs.map Prod.fst
            entries :=
              Entry.mk rels.1 rels.2 options ::
              Entry.mk ct.1 ct.2 options ::
              Entry.mk nuspec_path (Payload.bytes args.spec) options ::
              libEntries }

/-! ## `src/cargo/parse.rs` over parsed TOML values

The external `toml` crate's text parser and the file/UTF-8 acquisition
of `parse_toml` are foreign layers; the embedding starts where
`parser.parse()` has produced a table of TOML values (the `Some(toml)`
branch of `parse_toml`, lines 66–89). -/

/-- A parsed TOML value (`toml::Value`; the float and datetime variants,
which `parse.rs` never touches, are omitted). -/
inductive TomlValue
| str (s : String)
| int (n : Int)
| boolean (b : Bool)
| arr (vs : List TomlValue)
| table (kvs : List (String × TomlValue))

/-- `Value::as_table`. -/
def TomlValue.as_table : TomlValue → Option (List (String × TomlValue))
| TomlValue.table kvs => some kvs
| _ => none

/-- `Value::as_str`. -/
def TomlValue.as_str : TomlValue → Option String
| TomlValue.str s => some s
| _ => none

/-- `Value::as_slice`. -/
def TomlValue.as_slice : TomlValue → Option (List TomlValue)
| TomlValue.arr vs => some vs
| _ => none

/-- `CargoConfig` of `parse.rs`. -/
structure CargoConfig where
  name : String
  version : String
  authors : List String
  description : Option String
deriving DecidableEq, Repr

/-- `CargoInvalidError` of `parse.rs`. -/
inductive CargoInvalidError
| Missing (key : String)
| NotADyLib
deriving DecidableEq, Repr

/-- `CargoParseError` of `parse.rs` (foreign payloads opaque). -/
inductive CargoParseError
| Io (src : String)
| Utf8
| Invalid (err : CargoInvalidError)
| Toml
deriving DecidableEq, Repr

/-- `ensure_crate_is_dylib` (`parse.rs` lines 92–105): the `[lib]`
table's `crate-type` array, filtered to its strings, must contain
`"dylib"`; a missing or mistyped key is `Missing`, a present array
without `"dylib"` is `NotADyLib`. -/
def ensure_crate_is_dylib (toml : List (String × TomlValue)) : Except CargoInvalidError Unit :=
match (toml.lookup "lib").bind TomlValue.as_table with
| none => Except.error (CargoInvalidError.Missing "lib")
| some lib =>
  match (lib.lookup "crate-type").bind TomlValue.as_slice with
  | none => Except.error (CargoInvalidError.Missing "crate-type")
  | some ct =>
    if (ct.filterMap TomlValue.as_str).any (fun t => t = "dylib")
    then Except.ok ()
    else Except.error CargoInvalidError.NotADyLib

/-- `parse_toml` from the `Some(toml)` branch (`parse.rs` lines 66–89):
any `ensure_crate_is_dylib` failure is collapsed to
`Invalid(NotADyLib)` by the `map_err` on line 68; then the `package`
table's `name`, `version`, optional `description` and `authors` are
extracted, each missing one reported as `Invalid(Missing key)`. -/
def parse_toml (toml : List (String × TomlValue)) : Except CargoParseError CargoConfig :=
match ensure_crate_is_dylib toml with
| Except.error _ => Except.error (CargoParseError.Invalid CargoInvalidError.NotADyLib)
| Except.ok _ =>
  match (toml.lookup "package").bind TomlValue.as_table with
  | none => Except.error (CargoParseError.Invalid (CargoInvalidError.Missing "package"))
  | some pkg =>
    match (pkg.lookup "name").bind TomlValue.as_str with
    | none => Except.error (CargoParseError.Invalid (CargoInvalidError.Missing "name"))
    | some nm =>
      match (pkg.lookup "version").bind TomlValue.as_str with
      | none => Except.error (CargoParseError.Invalid (CargoInvalidError.Missing "version"))
      | some ver =>
        match (pkg.lookup "authors").bind TomlValue.as_slice with
        | none => Except.error (CargoParseError.Invalid (CargoInvalidError.Missing "authors"))
        | some authors =>
          Except.ok
            { name := nm
              version := ver
              authors := authors.filterMap TomlValue.as_str
              description := (pkg.lookup "description").bind TomlValue.as_str }

end NugetRs

namespace NugetRs
/-! ## Further definitions: decidable equality, fixtures, spec-side forms -/

instance {ε α : Type _} [DecidableEq ε] [DecidableEq α] : DecidableEq (Except ε α)
| Except.ok x, Except.ok y =>
  if h : x = y then isTrue (by rw [h]) else isFalse (fun he => h (by injection he))
| Except.ok _, Except.error _ => isFalse (fun he => Except.noConfusion he)
| Except.error _, Except.ok _ => isFalse (fun he => Except.noConfusion he)
| Except.error d, Except.error e =>
  if h : d = e then isTrue (by rw [h]) else isFalse (fun he => h (by injection he))

/-- The entry `write_lib` produces for one filtered pair when its source
file is readable. -/
def libEntryOf (fs : FS) (id : String) (rp : String × String) : Entry :=
Entry.mk (libEntryPath id rp.1 rp.2) (Payload.bytes ((fs rp.2).getD [])) options

/-- The file name `write_lib` gives a library entry: the id, with its
`set_extension`-style trailing extension replaced by the source path's
extension when the source has one. -/
def libFileName (id lib_path : String) : String :=
match pathExt lib_path with
| none => id
| some e => String.mk (stemC id.data ++ (if e.data = [] then [] else '.' :: e.data))

/-- The shape of a library entry's internal path, spelled out:
`runtimes/{rid}/native/{name}` with '/'-separators. -/
def libPathN (rid name : String) : String :=
String.mk ("runtimes".data ++ '/' :: (rid.data ++ '/' :: ("native".data ++ '/' :: name.data)))

/-- The spec's concrete-scenario file system: `./foo.dll` and
`./libfoo.so` exist with distinct contents, nothing else does. -/
def fsScenario : FS := fun p =>
if p = "./foo.dll" then some [1, 2, 3]
else if p = "./libfoo.so" then some [4, 5]
else none

/-- Arbitrary manifest bytes standing for the spec's buffer `B`. -/
def specBytes : Buf := [60, 110, 117, 115, 112, 101, 99, 62]

/-- The spec's concrete scenario request, with the target map iterated
`WindowsX64` first. -/
def argsScenario : NugetPackArgs :=
{ id := "foo"
  version := "1.2.3"
  spec := specBytes
  cargo_libs := [(Target.WindowsX64, "./foo.dll"), (Target.LinuxX64, "./libfoo.so")] }

/-- The same request with the other iteration order of the same target
map (a `HashMap` fixes no order, so both lists stand for the one map). -/
def argsScenarioRev : NugetPackArgs :=
{ argsScenario with cargo_libs := argsScenario.cargo_libs.reverse }

/-- What `pack` produces for `argsScenario` under `fsScenario`. -/
def nupkgScenario : Nupkg :=
{ name := "foo.1.2.3.nupkg"
  rids := ["win-x64", "linux-x64"]
  entries :=
    [Entry.mk "_rels/.rels" (Payload.relsXml "foo.nuspec") options,
     Entry.mk "[Content_Types].xml" Payload.contentTypesXml options,
     Entry.mk "foo.nuspec" (Payload.bytes specBytes) options,
     Entry.mk "runtimes/win-x64/native/foo.dll" (Payload.bytes [1, 2, 3]) options,
     Entry.mk "runtimes/linux-x64/native/foo.so" (Payload.bytes [4, 5]) options] }

/-- What `pack` produces for `argsScenarioRev` under `fsScenario`. -/
def nupkgScenarioRev : Nupkg :=
{ name := "foo.1.2.3.nupkg"
  rids := ["linux-x64", "win-x64"]
  entries :=
    [Entry.mk "_rels/.rels" (Payload.relsXml "foo.nuspec") options,
     Entry.mk "[Content_Types].xml" Payload.contentTypesXml options,
     Entry.mk "foo.nuspec" (Payload.bytes specBytes) options,
     Entry.mk "runtimes/linux-x64/native/foo.so" (Payload.bytes [4, 5]) options,
     Entry.mk "runtimes/win-x64/native/foo.dll" (Payload.bytes [1, 2, 3]) options] }

/-- A file system where only `./foo.dll` is readable: the linux target's
source is missing. -/
def fsMissing : FS := fun p => if p = "./foo.dll" then some [1, 2, 3] else none

/-- A file system holding only `./a.so`. -/
def fsDotted : FS := fun p => if p = "./a.so" then some [7] else none

/-- A request whose package id contains a dot. -/
def argsDotted : NugetPackArgs :=
{ id := "foo.bar"
  version := "1.0.0"
  spec := [1]
  cargo_libs := [(Target.WindowsX64, "./a.so")] }

/-- The condition of claim C10, written from the claim's words: the
parsed TOML has a `[lib]` table whose `crate-type` array contains the
string `"dylib"`. -/
def HasDylibCrateType (toml : List (String × TomlValue)) : Prop :=
∃ lib ct, toml.lookup "lib" = some (TomlValue.table lib) ∧
  lib.lookup "crate-type" = some (TomlValue.arr ct) ∧
  TomlValue.str "dylib" ∈ ct

/-- A parsed `Cargo.toml` with complete, well-formed package metadata
whose `crate-type` lacks `"dylib"`. -/
def tomlStatic : List (String × TomlValue) :=
[("package", TomlValue.table
    [("name", TomlValue.str "native"),
     ("version", TomlValue.str "0.1.0"),
     ("authors", TomlValue.arr [TomlValue.str "Somebody"]),
     ("description", TomlValue.str "a native crate")]),
 ("lib", TomlValue.table
    [("crate-type", TomlValue.arr [TomlValue.str "rlib", TomlValue.str "staticlib"])])]

/-! ## Helper lemmas about the assembler -/

theorem is_unknown_iff (t : Target) : t.is_unknown = true ↔ t = Target.Unknown := by
  cases t <;> simp [Target.is_unknown]

theorem filteredPkgs_eq_nil_iff (libs : List (Target × String)) :
    filteredPkgs libs = [] ↔ ∀ tp ∈ libs, tp.1 = Target.Unknown := by
  induction libs with
  | nil => simp [filteredPkgs]
  | cons hd tl ih =>
    simp only [filteredPkgs, List.filterMap_cons] at ih ⊢
    cases h : hd.1.is_unknown with
    | true =>
      have h1 : hd.1 = Target.Unknown := (is_unknown_iff hd.1).mp h
      simp [h, List.forall_mem_cons, h1, ih]
    | false =>
      have h1 : hd.1 ≠ Target.Unknown := by
        intro he; rw [he] at h; simp [Target.is_unknown] at h
      simp [h, List.forall_mem_cons, h1]

theorem writeLibs_error_shape (fs : FS) (id : String) (pkgs : List (String × String)) :
    ∀ e, writeLibs fs id pkgs = Except.error e →
      ∃ rid p err, e = NugetPackError.WriteLib rid p err := by
  induction pkgs with
  | nil => intro e h; simp [writeLibs] at h
  | cons hd tl ih =>
    intro e h
    obtain ⟨rid, p⟩ := hd
    simp only [writeLibs] at h
    cases hw : write_lib fs id rid p with
    | error we =>
      simp only [hw] at h
      injection h with h
      exact ⟨rid, p, we, h.symm⟩
    | ok entry =>
      simp only [hw] at h
      cases ht : writeLibs fs id tl with
      | error e2 =>
        simp only [ht] at h
        injection h with h
        obtain ⟨r2, p2, err2, he2⟩ := ih e2 ht
        exact ⟨r2, p2, err2, h ▸ he2⟩
      | ok es =>
        simp only [ht] at h
        cases h

theorem writeLibs_ok_iff (fs : FS) (id : String) (pkgs : List (String × String)) :
    ∀ es, writeLibs fs id pkgs = Except.ok es ↔
      (∀ rp ∈ pkgs, (fs rp.2).isSome) ∧ es = pkgs.map (libEntryOf fs id) := by
  induction pkgs with
  | nil =>
    intro es
    simp only [writeLibs, List.map_nil]
    constructor
    · intro h; injection h with h; exact ⟨by simp, h.symm⟩
    · rintro ⟨-, he⟩; rw [he]
  | cons hd tl ih =>
    intro es
    obtain ⟨rid, p⟩ := hd
    simp only [writeLibs]
    cases hf : fs p with
    | none =>
      simp only [write_lib, hf]
      constructor
      · intro h; cases h
      · rintro ⟨hall, -⟩
        have := hall (rid, p) (List.mem_cons_self _ _)
        simp [hf] at this
    | some b =>
      simp only [write_lib, hf]
      cases ht : writeLibs fs id tl with
      | error e2 =>
        simp only [ht]
        constructor
        · intro h; cases h
        · rintro ⟨hall, -⟩
          have htl : ∀ rp ∈ tl, (fs rp.2).isSome :=
            fun rp hrp => hall rp (List.mem_cons_of_mem _ hrp)
          have h2 := (ih (tl.map (libEntryOf fs id))).mpr ⟨htl, rfl⟩
          rw [h2] at ht
          exact Except.noConfusion ht
      | ok es2 =>
        simp only [ht, Except.ok.injEq]
        constructor
        · intro h
          obtain ⟨halltl, hes2⟩ := (ih es2).mp ht
          subst h
          constructor
          · intro rp hrp
            rcases List.mem_cons.mp hrp with h1 | h1
            · subst h1; simp [hf]
            · exact halltl rp h1
          · simp [hes2, libEntryOf, hf]
        · rintro ⟨hall, he⟩
          have htl : ∀ rp ∈ tl, (fs rp.2).isSome :=
            fun rp hrp => hall rp (List.mem_cons_of_mem _ hrp)
          have h2 := (ih (tl.map (libEntryOf fs id))).mpr ⟨htl, rfl⟩
          rw [h2] at ht
          injection ht with ht2
          subst he
          simp [List.map_cons, libEntryOf, hf, ← ht2]

end NugetRs

namespace NugetRs

/-! ## The assembler's success and failure shapes -/

theorem pack_ok_elim (fs : FS) (args : NugetPackArgs) (n : Nupkg)
    (h : pack fs args = Except.ok n) :
    filteredPkgs args.cargo_libs ≠ [] ∧
    (∀ rp ∈ filteredPkgs args.cargo_libs, (fs rp.2).isSome) ∧
    n.name = args.id ++ "." ++ args.version ++ ".nupkg" ∧
    n.rids = (filteredPkgs args.cargo_libs).map Prod.fst ∧
    n.entries =
      Entry.mk "_rels/.rels" (Payload.relsXml (nuspecPathOf args.id)) options ::
      Entry.mk "[Content_Types].xml" Payload.contentTypesXml options ::
      Entry.mk (nuspecPathOf args.id) (Payload.bytes args.spec) options ::
      (filteredPkgs args.cargo_libs).map (libEntryOf fs args.id) := by
  by_cases hlen : (filteredPkgs args.cargo_libs).length = 0
  · simp only [pack, if_pos hlen] at h
    cases h
  · simp only [pack, relationships, content_types, if_neg hlen] at h
    cases ht : writeLibs fs args.id (filteredPkgs args.cargo_libs) with
    | error e => simp only [ht] at h; cases h
    | ok es =>
      simp only [ht] at h
      injection h with h
      obtain ⟨hall, hes⟩ := (writeLibs_ok_iff fs args.id _ es).mp ht
      subst h
      refine ⟨by simpa [List.length_eq_zero] using hlen, hall, rfl, rfl, ?_⟩
      simp [hes]

theorem pack_ok_intro (fs : FS) (args : NugetPackArgs)
    (h1 : filteredPkgs args.cargo_libs ≠ [])
    (h2 : ∀ rp ∈ filteredPkgs args.cargo_libs, (fs rp.2).isSome) :
    pack fs args =
      Except.ok
        { name := args.id ++ "." ++ args.version ++ ".nupkg"
          rids := (filteredPkgs args.cargo_libs).map Prod.fst
          entries :=
            Entry.mk "_rels/.rels" (Payload.relsXml (nuspecPathOf args.id)) options ::
            Entry.mk "[Content_Types].xml" Payload.contentTypesXml options ::
            Entry.mk (nuspecPathOf args.id) (Payload.bytes args.spec) options ::
            (filteredPkgs args.cargo_libs).map (libEntryOf fs args.id) } := by
  have hlen : ¬ (filteredPkgs args.cargo_libs).length = 0 := by
    simpa [List.length_eq_zero] using h1
  have hw := (writeLibs_ok_iff fs args.id (filteredPkgs args.cargo_libs)
    ((filteredPkgs args.cargo_libs).map (libEntryOf fs args.id))).mpr ⟨h2, rfl⟩
  simp only [pack, relationships, content_types, if_neg hlen, hw]

theorem writeLibs_first_missing (fs : FS) (id : String) (pkgs : List (String × String)) :
    ∀ rid p, pkgs.find? (fun rp => (fs rp.2).isNone) = some (rid, p) →
      writeLibs fs id pkgs =
        Except.error (NugetPackError.WriteLib rid p NugetWriteLibError.Io) := by
  induction pkgs with
  | nil => intro rid p h; simp at h
  | cons hd tl ih =>
    intro rid p h
    obtain ⟨r0, p0⟩ := hd
    by_cases h0 : (fs p0).isNone = true
    · have hfind : List.find? (fun rp => (fs rp.2).isNone) ((r0, p0) :: tl) = some (r0, p0) :=
        List.find?_cons_of_pos _ (by simpa using h0)
      rw [hfind] at h
      injection h with h
      obtain ⟨h1, h2⟩ := Prod.mk.injEq .. |>.mp h
      have hfn : fs p0 = none := Option.isNone_iff_eq_none.mp h0
      subst h1
      subst h2
      simp [writeLibs, write_lib, hfn]
    · have hfind : List.find? (fun rp => (fs rp.2).isNone) ((r0, p0) :: tl) =
          List.find? (fun rp => (fs rp.2).isNone) tl :=
        List.find?_cons_of_neg _ (by simpa using h0)
      rw [hfind] at h
      have hb : ∃ b, fs p0 = some b := by
        cases hf : fs p0 with
        | none => rw [hf] at h0; simp at h0
        | some b => exact ⟨b, rfl⟩
      obtain ⟨b, hb⟩ := hb
      simp [writeLibs, write_lib, hb, ih rid p h]

end NugetRs

namespace NugetRs

/-! ## Claim theorems -/

/-- C1: for every request whose native-library set is empty or contains
only the `Unknown` target, `pack` fails with `NoValidTargets` — and it
does so for every file system alike, so no file io beyond the target
filtering is involved and no archive is produced; conversely, `pack`
returns `NoValidTargets` only in that case. -/
theorem pack_noValidTargets_iff (fs : FS) (args : NugetPackArgs) :
    pack fs args = Except.error NugetPackError.NoValidTargets ↔
      ∀ tp ∈ args.cargo_libs, tp.1 = Target.Unknown := by
  rw [← filteredPkgs_eq_nil_iff]
  by_cases hlen : (filteredPkgs args.cargo_libs).length = 0
  · have hnil : filteredPkgs args.cargo_libs = [] := List.length_eq_zero.mp hlen
    simp [pack, hlen, hnil]
  · have hne : filteredPkgs args.cargo_libs ≠ [] := by
      simpa [List.length_eq_zero] using hlen
    simp only [pack, relationships, content_types, if_neg hlen]
    cases ht : writeLibs fs args.id (filteredPkgs args.cargo_libs) with
    | error e =>
      obtain ⟨r, p, err, he⟩ := writeLibs_error_shape fs args.id _ e ht
      simp [he, hne]
    | ok es => simp [hne]

/-- C4: when the source file of a filtered target is missing (the first
such target in iteration order), `pack` returns a `WriteLib` error
carrying that target's runtime identifier and source path and wrapping
the underlying io cause; no `Nupkg` is returned — even when every other
target's file is readable — and the assembly is aborted. -/
theorem pack_writeLib_on_missing_source (fs : FS) (args : NugetPackArgs) (rid p : String)
    (h : (filteredPkgs args.cargo_libs).find? (fun rp => (fs rp.2).isNone) = some (rid, p)) :
    pack fs args = Except.error (NugetPackError.WriteLib rid p NugetWriteLibError.Io) := by
  have hmem : (rid, p) ∈ filteredPkgs args.cargo_libs := List.mem_of_find?_eq_some h
  have hne : filteredPkgs args.cargo_libs ≠ [] := by
    intro h0
    rw [h0] at hmem
    cases hmem
  have hlen : ¬ (filteredPkgs args.cargo_libs).length = 0 := by
    simpa [List.length_eq_zero] using hne
  have hw := writeLibs_first_missing fs args.id (filteredPkgs args.cargo_libs) rid p h
  simp only [pack, relationships, content_types, if_neg hlen, hw]

/-- C4 witness: in the concrete scenario with `./foo.dll` readable and
`./libfoo.so` missing, `pack` fails with the `WriteLib` error naming the
linux target's rid and path, wrapping the io cause. -/
theorem pack_writeLib_on_missing_source_witness :
    pack fsMissing argsScenario =
      Except.error (NugetPackError.WriteLib "linux-x64" "./libfoo.so" NugetWriteLibError.Io) :=
  pack_writeLib_on_missing_source fsMissing argsScenario "linux-x64" "./libfoo.so" (by decide)

/-- C5: for every successful `pack` call, the manifest entry of the
archive (the third entry, at the nuspec path) carries exactly the input
manifest buffer, untransformed. -/
theorem pack_manifest_verbatim (fs : FS) (args : NugetPackArgs) (n : Nupkg)
    (h : pack fs args = Except.ok n) :
    n.entries.get? 2 =
      some (Entry.mk (nuspecPathOf args.id) (Payload.bytes args.spec) options) := by
  obtain ⟨-, -, -, -, he⟩ := pack_ok_elim fs args n h
  rw [he]
  rfl

/-- C5 witness: in the concrete scenario the manifest entry holds the
input buffer `specBytes` verbatim. -/
theorem pack_manifest_verbatim_witness :
    nupkgScenario.entries.get? 2 =
      some (Entry.mk (nuspecPathOf argsScenario.id) (Payload.bytes argsScenario.spec) options) :=
  pack_manifest_verbatim fsScenario argsScenario nupkgScenario (by decide)

/-- C8: every entry of every archive `pack` produces — the two
descriptor entries, the manifest entry and each library entry — uses the
one fixed `Deflated` compression method; none is stored uncompressed. -/
theorem pack_entries_all_deflated (fs : FS) (args : NugetPackArgs) (n : Nupkg)
    (h : pack fs args = Except.ok n) :
    ∀ e ∈ n.entries, e.method = CompressionMethod.Deflated := by
  obtain ⟨-, -, -, -, he⟩ := pack_ok_elim fs args n h
  intro e hmem
  rw [he] at hmem
  rcases List.mem_cons.mp hmem with rfl | hmem
  · rfl
  rcases List.mem_cons.mp hmem with rfl | hmem
  · rfl
  rcases List.mem_cons.mp hmem with rfl | hmem
  · rfl
  obtain ⟨rp, -, rfl⟩ := List.mem_map.mp hmem
  rfl

/-- C8 witness: the scenario archive's manifest entry uses `Deflated`. -/
theorem pack_entries_all_deflated_witness :
    (Entry.mk "foo.nuspec" (Payload.bytes specBytes) options).method =
      CompressionMethod.Deflated :=
  pack_entries_all_deflated fsScenario argsScenario nupkgScenario (by decide)
    (Entry.mk "foo.nuspec" (Payload.bytes specBytes) options) (by decide)

/-- C9: every `Nupkg` that `pack` returns has a non-empty rid list which
equals, element for element and in order, the runtime identifiers of the
step-1 filtered target set (the set whose entries were written: the
archive holds exactly three fixed entries plus one per rid), and its
name is `{id}.{version}.nupkg` with id and version unescaped. -/
theorem pack_rids_mirror_filtered (fs : FS) (args : NugetPackArgs) (n : Nupkg)
    (h : pack fs args = Except.ok n) :
    n.rids ≠ [] ∧
    n.rids = (filteredPkgs args.cargo_libs).map Prod.fst ∧
    n.name = args.id ++ "." ++ args.version ++ ".nupkg" ∧
    n.entries.length = 3 + n.rids.length := by
  obtain ⟨h1, -, hname, hrids, hent⟩ := pack_ok_elim fs args n h
  refine ⟨?_, hrids, hname, ?_⟩
  · rw [hrids]
    intro hm
    exact h1 (List.map_eq_nil_iff.mp hm)
  · rw [hent, hrids]
    simp only [List.length_cons, List.length_map]
    omega

/-- C9 witness: the scenario package has rids exactly the filtered
set's, non-empty, name `foo.1.2.3.nupkg`, and five entries. -/
theorem pack_rids_mirror_filtered_witness :
    nupkgScenario.rids ≠ [] ∧
    nupkgScenario.rids = (filteredPkgs argsScenario.cargo_libs).map Prod.fst ∧
    nupkgScenario.name = argsScenario.id ++ "." ++ argsScenario.version ++ ".nupkg" ∧
    nupkgScenario.entries.length = 3 + nupkgScenario.rids.length :=
  pack_rids_mirror_filtered fsScenario argsScenario nupkgScenario (by decide)

/-- C2 counterexample: the concrete scenario's target map has two
iteration orders; on the reversed one — the same map, `Perm`-equal —
`pack` returns rids `["linux-x64", "win-x64"]`, not the claimed
`["win-x64", "linux-x64"]`, so the claimed rid order is not a function
of the request. -/
theorem pack_scenario_order_cex :
    argsScenarioRev.cargo_libs.Perm argsScenario.cargo_libs ∧
    pack fsScenario argsScenarioRev = Except.ok nupkgScenarioRev ∧
    nupkgScenarioRev.rids ≠ ["win-x64", "linux-x64"] :=
  ⟨by decide, by decide, by decide⟩

/-- C3 counterexample: two requests carrying the same target map (the
association lists are permutations of one another, with distinct keys)
and read under the same file system produce different archives and
different rid lists, because `pack` follows the map's arbitrary
iteration order. -/
theorem pack_hash_order_cex :
    argsScenario.cargo_libs.Perm argsScenarioRev.cargo_libs ∧
    (argsScenario.cargo_libs.map Prod.fst).Nodup ∧
    pack fsScenario argsScenario ≠ pack fsScenario argsScenarioRev ∧
    (pack fsScenario argsScenario).map Nupkg.rids ≠
      (pack fsScenario argsScenarioRev).map Nupkg.rids :=
  ⟨by decide, by decide, by decide, by decide⟩

end NugetRs

namespace NugetRs

/-- C10: `parse_toml` accepts only dynamic-library crates — whenever the
parsed TOML lacks a `[lib]` table whose `crate-type` array contains the
string `"dylib"` (the table is missing, mistyped, or the array has no
`"dylib"`), the result is the `Invalid(NotADyLib)` error, regardless of
the package metadata. -/
theorem parse_toml_requires_dylib (toml : List (String × TomlValue))
    (h : ¬ HasDylibCrateType toml) :
    parse_toml toml = Except.error (CargoParseError.Invalid CargoInvalidError.NotADyLib) := by
  cases he : ensure_crate_is_dylib toml with
  | error e => simp only [parse_toml, he]
  | ok u =>
    exfalso
    apply h
    unfold ensure_crate_is_dylib at he
    cases h1 : (toml.lookup "lib").bind TomlValue.as_table with
    | none =>
      simp only [h1] at he
      exact Except.noConfusion he
    | some lib =>
      simp only [h1] at he
      cases h2 : (lib.lookup "crate-type").bind TomlValue.as_slice with
      | none =>
        simp only [h2] at he
        exact Except.noConfusion he
      | some ct =>
        simp only [h2] at he
        cases hany : (ct.filterMap TomlValue.as_str).any (fun t => t = "dylib") with
        | false => simp [hany] at he
        | true =>
          obtain ⟨s, hs, hp⟩ := List.any_eq_true.mp hany
          have hsd : s = "dylib" := of_decide_eq_true hp
          obtain ⟨v, hv, hvs⟩ := List.mem_filterMap.mp hs
          obtain ⟨v0, hv0, hvt⟩ := Option.bind_eq_some.mp h1
          obtain ⟨v1, hv1, hvs1⟩ := Option.bind_eq_some.mp h2
          rcases v0 with s0 | n0 | b0 | vs0 | kvs0 <;> simp [TomlValue.as_table] at hvt
          rcases v1 with s1 | n1 | b1 | vs1 | kvs1 <;> simp [TomlValue.as_slice] at hvs1
          rcases v with sv | nv | bv | vsv | kvsv <;> simp [TomlValue.as_str] at hvs
          subst hvt
          subst hvs1
          subst hvs
          subst hsd
          exact ⟨kvs0, vs1, hv0, hv1, hv⟩

/-- C10 witness: a config with complete, well-formed package metadata
but `crate-type = ["rlib", "staticlib"]` parses to `Invalid(NotADyLib)`. -/
theorem parse_toml_requires_dylib_witness :
    parse_toml tomlStatic =
      Except.error (CargoParseError.Invalid CargoInvalidError.NotADyLib) :=
  parse_toml_requires_dylib tomlStatic (by
    rintro ⟨lib, ct, h1, h2, h3⟩
    have e1 : tomlStatic.lookup "lib" =
        some (TomlValue.table
          [("crate-type", TomlValue.arr [TomlValue.str "rlib", TomlValue.str "staticlib"])]) :=
      rfl
    rw [e1] at h1
    injection h1 with h1
    injection h1 with h1
    subst h1
    have e2 : List.lookup "crate-type"
        [("crate-type", TomlValue.arr [TomlValue.str "rlib", TomlValue.str "staticlib"])] =
        some (TomlValue.arr [TomlValue.str "rlib", TomlValue.str "staticlib"]) := rfl
    rw [e2] at h2
    injection h2 with h2
    injection h2 with h2
    subst h2
    rcases List.mem_cons.mp h3 with he | h3
    · injection he with he
      exact absurd he (by decide)
    rcases List.mem_cons.mp h3 with he | h3
    · injection he with he
      exact absurd he (by decide)
    cases h3)

/-- A list permutation-equal to a two-element list is one of its two
arrangements. -/
theorem perm_pair_cases {α : Type _} (a b : α) (l : List α) (h : l.Perm [a, b]) :
    l = [a, b] ∨ l = [b, a] := by
  have hlen : l.length = 2 := by simpa using h.length_eq
  cases l with
  | nil => simp at hlen
  | cons x l1 =>
    cases l1 with
    | nil => simp at hlen
    | cons y l2 =>
      cases l2 with
      | cons z l3 => simp at hlen
      | nil =>
        have hx : x ∈ ([a, b] : List α) := h.mem_iff.mp (by simp)
        have hy : y ∈ ([a, b] : List α) := h.mem_iff.mp (by simp)
        by_cases hab : a = b
        · subst hab
          have hx2 : x = a := by simpa using hx
          have hy2 : y = a := by simpa using hy
          left
          rw [hx2, hy2]
        · have hnd : ([x, y] : List α).Nodup := h.nodup_iff.mpr (by simp [hab])
          have hxy : x ≠ y := by
            simp only [List.nodup_cons, List.mem_singleton] at hnd
            exact hnd.1
          rcases (by simpa using hx : x = a ∨ x = b) with rfl | rfl
          · rcases (by simpa using hy : y = x ∨ y = b) with h1 | rfl
            · exact absurd h1.symm hxy
            · left; rfl
          · rcases (by simpa using hy : y = a ∨ y = x) with rfl | h1
            · right; rfl
            · exact absurd h1.symm hxy

/-- C2 amended: for the spec's concrete scenario request — under either
iteration order of its two-target map — `pack` succeeds, the output name
is `foo.1.2.3.nupkg`, the archive holds exactly the five claimed entries
(the two descriptors, the manifest with buffer `B`, and the two library
entries, as a multiset), and the rid list is `["win-x64", "linux-x64"]`
up to the map's iteration order; the order itself is not a function of
the request. -/
theorem pack_scenario_amended (libs : List (Target × String))
    (h : libs.Perm argsScenario.cargo_libs) :
    ∃ n, pack fsScenario { argsScenario with cargo_libs := libs } = Except.ok n ∧
      n.name = "foo.1.2.3.nupkg" ∧
      n.rids.Perm ["win-x64", "linux-x64"] ∧
      n.entries.length = 5 ∧
      n.entries.Perm nupkgScenario.entries := by
  rcases perm_pair_cases _ _ _ h with h1 | h1
  · rw [h1]
    exact ⟨nupkgScenario, by decide, by decide, by decide, by decide, by decide⟩
  · rw [h1]
    exact ⟨nupkgScenarioRev, by decide, by decide, by decide, by decide, by decide⟩

/-- C2 amended witness: the canonical iteration order instance. -/
theorem pack_scenario_amended_witness :
    ∃ n, pack fsScenario { argsScenario with cargo_libs := argsScenario.cargo_libs } =
        Except.ok n ∧
      n.name = "foo.1.2.3.nupkg" ∧
      n.rids.Perm ["win-x64", "linux-x64"] ∧
      n.entries.length = 5 ∧
      n.entries.Perm nupkgScenario.entries :=
  pack_scenario_amended argsScenario.cargo_libs (List.Perm.refl _)

theorem pack_ok_exists_mono (fs : FS) (a1 a2 : NugetPackArgs)
    (hperm : a1.cargo_libs.Perm a2.cargo_libs) :
    (∃ n, pack fs a1 = Except.ok n) → ∃ n, pack fs a2 = Except.ok n := by
  have hpk : (filteredPkgs a1.cargo_libs).Perm (filteredPkgs a2.cargo_libs) :=
    hperm.filterMap _
  rintro ⟨n, hn⟩
  obtain ⟨h1, h2, -⟩ := pack_ok_elim fs a1 n hn
  refine ⟨_, pack_ok_intro fs a2 ?_ ?_⟩
  · intro h0
    rw [h0] at hpk
    exact h1 hpk.eq_nil
  · intro rp hrp
    exact h2 rp (hpk.mem_iff.mpr hrp)

/-- C3 amended: `pack` is a pure, deterministic function of its
arguments together with the map's iteration order: two calls whose
requests agree on id, version and manifest and whose target maps hold
the same entries succeed or fail together, and on success produce the
same name and permutation-equal rid lists and entry sequences — but the
entry and rid order follows the map's iteration order (a `HashMap`'s
arbitrary order, not a canonical target enumeration), so byte-identical
archives are only guaranteed per iteration order. -/
theorem pack_perm_invariance (fs : FS) (a1 a2 : NugetPackArgs)
    (hid : a1.id = a2.id) (hver : a1.version = a2.version) (hspec : a1.spec = a2.spec)
    (hperm : a1.cargo_libs.Perm a2.cargo_libs) :
    ((∃ n, pack fs a1 = Except.ok n) ↔ (∃ n, pack fs a2 = Except.ok n)) ∧
    ∀ n1 n2, pack fs a1 = Except.ok n1 → pack fs a2 = Except.ok n2 →
      n1.name = n2.name ∧ n1.rids.Perm n2.rids ∧ n1.entries.Perm n2.entries := by
  have hpk : (filteredPkgs a1.cargo_libs).Perm (filteredPkgs a2.cargo_libs) :=
    hperm.filterMap _
  constructor
  · exact ⟨pack_ok_exists_mono fs a1 a2 hperm, pack_ok_exists_mono fs a2 a1 hperm.symm⟩
  · intro n1 n2 h1 h2
    obtain ⟨-, -, hname1, hrids1, hent1⟩ := pack_ok_elim fs a1 n1 h1
    obtain ⟨-, -, hname2, hrids2, hent2⟩ := pack_ok_elim fs a2 n2 h2
    refine ⟨?_, ?_, ?_⟩
    · rw [hname1, hname2, hid, hver]
    · rw [hrids1, hrids2]
      exact hpk.map _
    · rw [hent1, hent2, hid, hspec]
      exact List.Perm.cons _ (List.Perm.cons _ (List.Perm.cons _ (hpk.map _)))

/-- C3 amended witness: the two iteration orders of the scenario map. -/
theorem pack_perm_invariance_witness :
    ((∃ n, pack fsScenario argsScenario = Except.ok n) ↔
      (∃ n, pack fsScenario argsScenarioRev = Except.ok n)) ∧
    ∀ n1 n2, pack fsScenario argsScenario = Except.ok n1 →
        pack fsScenario argsScenarioRev = Except.ok n2 →
      n1.name = n2.name ∧ n1.rids.Perm n2.rids ∧ n1.entries.Perm n2.entries :=
  pack_perm_invariance fsScenario argsScenario argsScenarioRev rfl rfl rfl (by decide)

end NugetRs

namespace NugetRs

/-! ## Path lemmas -/

theorem data_mk (l : List Char) : (String.mk l).data = l := rfl

theorem data_pathPush (p s : String) : (pathPush p s).data = pathPushC p.data s.data := rfl

theorem data_pathSetExt (p e : String) : (pathSetExt p e).data = pathSetExtC p.data e.data := rfl

theorem takeWhile_all_append (p : Char → Bool) :
    ∀ (l1 : List Char) (x : Char) (l2 : List Char),
      (∀ c ∈ l1, p c = true) → p x = false →
      (l1 ++ x :: l2).takeWhile p = l1 := by
  intro l1
  induction l1 with
  | nil =>
    intro x l2 h1 h2
    simp [List.takeWhile_cons, h2]
  | cons c t ih =>
    intro x l2 h1 h2
    have hc : p c = true := h1 c (List.mem_cons_self _ _)
    simp [List.takeWhile_cons, hc, ih x l2 (fun d hd => h1 d (List.mem_cons_of_mem _ hd)) h2]

theorem head?_ne (s : List Char) (x : Char) (h : ∀ c ∈ s, c ≠ x) : s.head? ≠ some x := by
  cases s with
  | nil => simp
  | cons c t =>
    simp only [List.head?_cons, ne_eq, Option.some.injEq]
    exact h c (List.mem_cons_self _ _)

theorem pathPushC_nil (s : List Char) : pathPushC [] s = s := by
  by_cases h : s.head? = some '/' <;> simp [pathPushC, h]

theorem pathPushC_eq_append (p s : List Char) (hp : p ≠ []) (hs : s.head? ≠ some '/') :
    pathPushC p s = p ++ '/' :: s := by
  simp [pathPushC, hs, hp]

theorem fileNameC_of_no_slash (s : List Char) (h : ∀ c ∈ s, c ≠ '/') : fileNameC s = s := by
  have h1 : s.reverse.takeWhile (fun c => decide (c ≠ '/')) = s.reverse :=
    List.takeWhile_eq_self_iff.mpr (fun c hc => decide_eq_true (h c (List.mem_reverse.mp hc)))
  unfold fileNameC
  rw [h1, List.reverse_reverse]

theorem fileNameC_append (a s : List Char) (h : ∀ c ∈ s, c ≠ '/') :
    fileNameC (a ++ '/' :: s) = s := by
  unfold fileNameC
  rw [List.reverse_append, List.reverse_cons, List.append_assoc, List.singleton_append]
  rw [takeWhile_all_append _ s.reverse '/' a.reverse
    (fun c hc => decide_eq_true (h c (List.mem_reverse.mp hc))) (by decide)]
  exact List.reverse_reverse s

theorem dirC_append (a s : List Char) (h : ∀ c ∈ s, c ≠ '/') :
    dirC (a ++ '/' :: s) = a ++ ['/'] := by
  unfold dirC
  rw [fileNameC_append a s h]
  have hlen : (a ++ '/' :: s).length - s.length = a.length + 1 := by
    rw [List.length_append, List.length_cons]
    omega
  rw [hlen]
  have h2 : List.take (a.length + 1) (a ++ '/' :: s) = a ++ List.take 1 ('/' :: s) :=
    List.take_append 1
  rw [h2]
  rfl

theorem pathSetExtC_append (a s e : List Char) (hs0 : s ≠ []) (hs : ∀ c ∈ s, c ≠ '/') :
    pathSetExtC (a ++ '/' :: s) e =
      a ++ '/' :: (stemC s ++ (if e = [] then [] else '.' :: e)) := by
  simp only [pathSetExtC]
  rw [fileNameC_append a s hs, if_neg hs0, dirC_append a s hs]
  simp [List.append_assoc]

theorem extC_of_no_dot (name : List Char) (h : '.' ∉ name.drop 1) : extC name = none := by
  cases name with
  | nil => rfl
  | cons c cs =>
    have hcs : '.' ∉ cs := by simpa using h
    by_cases hc : c = '.'
    · subst hc
      have h1 : ('.' :: cs).reverse.takeWhile (fun x => decide (x ≠ '.')) = cs.reverse := by
        rw [List.reverse_cons]
        exact takeWhile_all_append _ cs.reverse '.' []
          (fun x hx => decide_eq_true (fun he => hcs (he ▸ List.mem_reverse.mp hx)))
          (by decide)
      simp only [extC, h1, List.length_reverse, List.length_cons, List.head?_cons]
      rw [if_neg (by omega), if_pos ⟨by omega, by trivial⟩]
    · have h1 : (c :: cs).reverse.takeWhile (fun x => decide (x ≠ '.')) = (c :: cs).reverse := by
        apply List.takeWhile_eq_self_iff.mpr
        intro x hx
        rcases List.mem_cons.mp (List.mem_reverse.mp hx) with rfl | hx2
        · exact decide_eq_true hc
        · exact decide_eq_true (fun he => hcs (he ▸ hx2))
      simp only [extC, h1, List.length_reverse]
      rfl

theorem stemC_of_no_dot (name : List Char) (h : '.' ∉ name.drop 1) : stemC name = name := by
  simp [stemC, extC_of_no_dot name h]

end NugetRs

namespace NugetRs

theorem nuspecPath_data (id : String) (h0 : id.data ≠ []) (h1 : ∀ c ∈ id.data, c ≠ '/') :
    (nuspecPathOf id).data = stemC id.data ++ '.' :: "nuspec".data := by
  show pathSetExtC (pathPushC ("" : String).data id.data) "nuspec".data =
    stemC id.data ++ '.' :: "nuspec".data
  rw [show ("" : String).data = [] from rfl, pathPushC_nil]
  simp only [pathSetExtC]
  rw [fileNameC_of_no_slash id.data h1, if_neg h0]
  have hd : dirC id.data = [] := by
    unfold dirC
    rw [fileNameC_of_no_slash id.data h1]
    simp
  rw [hd, if_neg (show ¬("nuspec".data = []) by decide)]
  simp

theorem nuspecPathOf_no_dot (id : String) (h0 : id.data ≠ []) (h1 : ∀ c ∈ id.data, c ≠ '/')
    (h2 : '.' ∉ id.data.drop 1) :
    nuspecPathOf id = id ++ ".nuspec" := by
  apply String.ext
  rw [nuspecPath_data id h0 h1, stemC_of_no_dot id.data h2, String.data_append]

theorem nuspecPath_no_slash (id : String) (h0 : id.data ≠ []) (h1 : ∀ c ∈ id.data, c ≠ '/') :
    '/' ∉ (nuspecPathOf id).data := by
  rw [nuspecPath_data id h0 h1]
  intro hmem
  rcases List.mem_append.mp hmem with hm | hm
  · have hid : '/' ∈ id.data := by
      cases he : extC id.data with
      | none => simp only [stemC, he] at hm; exact hm
      | some e => simp only [stemC, he] at hm; exact List.take_subset _ _ hm
    exact h1 '/' hid rfl
  · rcases List.mem_cons.mp hm with hm2 | hm2
    · exact absurd hm2 (by decide)
    · exact absurd hm2 (by decide)

theorem libEntryPath_norm (id rid lib_path : String)
    (hid0 : id.data ≠ []) (hid1 : ∀ c ∈ id.data, c ≠ '/')
    (hr1 : ∀ c ∈ rid.data, c ≠ '/') :
    libEntryPath id rid lib_path = libPathN rid (libFileName id lib_path) := by
  have hbase :
      pathPushC (pathPushC (pathPushC (pathPushC [] "runtimes".data) rid.data)
        "native".data) id.data =
      ("runtimes".data ++ '/' :: rid.data ++ '/' :: "native".data) ++ '/' :: id.data := by
    rw [pathPushC_nil]
    rw [pathPushC_eq_append "runtimes".data rid.data (by decide) (head?_ne _ _ hr1)]
    rw [pathPushC_eq_append _ "native".data
      (fun hh => absurd (List.append_eq_nil.mp hh).1 (by decide)) (by decide)]
    rw [pathPushC_eq_append _ id.data
      (fun hh => absurd (List.append_eq_nil.mp (List.append_eq_nil.mp hh).1).1 (by decide))
      (head?_ne _ _ hid1)]
  apply String.ext
  unfold libEntryPath
  cases he : pathExt lib_path with
  | none =>
    simp only [he]
    show pathPushC (pathPushC (pathPushC (pathPushC ("" : String).data "runtimes".data)
        rid.data) "native".data) id.data = (libPathN rid (libFileName id lib_path)).data
    rw [show ("" : String).data = [] from rfl, hbase]
    simp only [libFileName, he, libPathN, data_mk]
    simp [List.append_assoc]
  | some e =>
    simp only [he]
    show pathSetExtC (pathPushC (pathPushC (pathPushC (pathPushC ("" : String).data
        "runtimes".data) rid.data) "native".data) id.data) e.data =
      (libPathN rid (libFileName id lib_path)).data
    rw [show ("" : String).data = [] from rfl, hbase]
    rw [pathSetExtC_append _ id.data e.data hid0 hid1]
    simp only [libFileName, he, libPathN, data_mk]
    simp [List.append_assoc]

theorem seg_append_inj : ∀ (a b t1 t2 : List Char), (∀ c ∈ a, c ≠ '/') → (∀ c ∈ b, c ≠ '/') →
    a ++ '/' :: t1 = b ++ '/' :: t2 → a = b ∧ t1 = t2 := by
  intro a
  induction a with
  | nil =>
    intro b t1 t2 ha hb h
    cases b with
    | nil => simpa using h
    | cons bh bt =>
      simp only [List.nil_append, List.cons_append] at h
      injection h with h1 h2
      exact absurd h1.symm (hb bh (List.mem_cons_self _ _))
  | cons ah at' ih =>
    intro b t1 t2 ha hb h
    cases b with
    | nil =>
      simp only [List.cons_append, List.nil_append] at h
      injection h with h1 h2
      exact absurd h1 (ha ah (List.mem_cons_self _ _))
    | cons bh bt =>
      simp only [List.cons_append] at h
      injection h with h1 h2
      obtain ⟨hab, ht⟩ := ih bt t1 t2 (fun c hc => ha c (List.mem_cons_of_mem _ hc))
        (fun c hc => hb c (List.mem_cons_of_mem _ hc)) h2
      exact ⟨by rw [h1, hab], ht⟩

theorem libPathN_inj (r1 r2 : String) (n1 n2 : String)
    (hr1 : ∀ c ∈ r1.data, c ≠ '/') (hr2 : ∀ c ∈ r2.data, c ≠ '/')
    (h : libPathN r1 n1 = libPathN r2 n2) : r1 = r2 := by
  have hd := congrArg String.data h
  simp only [libPathN, data_mk] at hd
  have h2 := List.append_cancel_left hd
  injection h2 with h2a h3
  exact String.ext (seg_append_inj r1.data r2.data _ _ hr1 hr2 h3).1

end NugetRs

namespace NugetRs

theorem filteredPkgs_cons_unknown (t : Target) (p : String) (tl : List (Target × String))
    (hu : t.is_unknown = true) : filteredPkgs ((t, p) :: tl) = filteredPkgs tl := by
  simp [filteredPkgs, List.filterMap_cons, hu]

theorem filteredPkgs_cons_known (t : Target) (p : String) (tl : List (Target × String))
    (hu : t.is_unknown = false) :
    filteredPkgs ((t, p) :: tl) = (t.rid, p) :: filteredPkgs tl := by
  simp [filteredPkgs, List.filterMap_cons, hu]

theorem rid_inj : ∀ t1 t2 : Target, t1.is_unknown = false → t2.is_unknown = false →
    t1.rid = t2.rid → t1 = t2 := by
  intro t1 t2 h1 h2 h3
  revert h1 h2 h3
  cases t1 <;> cases t2 <;> decide

theorem rid_no_slash : ∀ t : Target, t.is_unknown = false →
    t.rid.data ≠ [] ∧ ∀ c ∈ t.rid.data, c ≠ '/' := by
  intro t
  cases t <;> decide

theorem mem_filteredPkgs (libs : List (Target × String)) (rid p : String)
    (h : (rid, p) ∈ filteredPkgs libs) :
    ∃ t, (t, p) ∈ libs ∧ t.is_unknown = false ∧ rid = t.rid := by
  obtain ⟨⟨t, q⟩, htp, hf⟩ := List.mem_filterMap.mp h
  by_cases hu : t.is_unknown = true
  · simp [hu] at hf
  · have hu2 : t.is_unknown = false := by
      cases hbb : t.is_unknown with
      | true => exact absurd hbb hu
      | false => rfl
    rw [if_neg hu] at hf
    injection hf with hf
    have h1 : t.rid = rid := congrArg Prod.fst hf
    have h2 : q = p := congrArg Prod.snd hf
    exact ⟨t, h2 ▸ htp, hu2, h1.symm⟩

theorem filteredPkgs_keys_nodup (libs : List (Target × String))
    (h : (libs.map Prod.fst).Nodup) : ((filteredPkgs libs).map Prod.fst).Nodup := by
  induction libs with
  | nil => simp [filteredPkgs]
  | cons hd tl ih =>
    obtain ⟨t, p⟩ := hd
    simp only [List.map_cons, List.nodup_cons] at h
    cases hu : t.is_unknown with
    | true =>
      rw [filteredPkgs_cons_unknown t p tl hu]
      exact ih h.2
    | false =>
      rw [filteredPkgs_cons_known t p tl hu]
      simp only [List.map_cons, List.nodup_cons]
      refine ⟨?_, ih h.2⟩
      intro hmem
      obtain ⟨⟨r2, p2⟩, hm2, he2⟩ := List.mem_map.mp hmem
      obtain ⟨t2, ht2, hu2, hr2⟩ := mem_filteredPkgs tl r2 p2 hm2
      have ht2t : t2 = t := rid_inj t2 t hu2 hu (by rw [← hr2]; exact he2)
      exact h.1 (ht2t ▸ List.mem_map.mpr ⟨(t2, p2), ht2, rfl⟩)

theorem eq_of_same_key (x y : String × String) : ∀ l : List (String × String),
    (l.map Prod.fst).Nodup → x ∈ l → y ∈ l → x.1 = y.1 → x = y := by
  intro l
  induction l with
  | nil => intro _ hx; cases hx
  | cons hd tl ih =>
    intro hk hx hy hxy
    simp only [List.map_cons, List.nodup_cons] at hk
    rcases List.mem_cons.mp hx with rfl | hx2
    · rcases List.mem_cons.mp hy with rfl | hy2
      · rfl
      · exact absurd (by rw [hxy]; exact List.mem_map.mpr ⟨y, hy2, rfl⟩) hk.1
    · rcases List.mem_cons.mp hy with rfl | hy2
      · exact absurd (by rw [← hxy]; exact List.mem_map.mpr ⟨x, hx2, rfl⟩) hk.1
      · exact ih hk.2 hx2 hy2 hxy

theorem countP_eq_one_keyed (q : String × String → Bool) :
    ∀ (pkgs : List (String × String)) (rp : String × String), rp ∈ pkgs →
      (pkgs.map Prod.fst).Nodup →
      (∀ x ∈ pkgs, q x = true ↔ x.1 = rp.1) →
      pkgs.countP q = 1 := by
  intro pkgs
  induction pkgs with
  | nil => intro rp h; cases h
  | cons hd tl ih =>
    intro rp hmem hk hq
    simp only [List.map_cons, List.nodup_cons] at hk
    rw [List.countP_cons]
    rcases List.mem_cons.mp hmem with rfl | hmem2
    · have hqhd : q rp = true := (hq rp (List.mem_cons_self _ _)).mpr rfl
      have h0 : tl.countP q = 0 := by
        rw [List.countP_eq_zero]
        intro x hx hqx
        have hx1 := (hq x (List.mem_cons_of_mem _ hx)).mp hqx
        exact hk.1 (by rw [← hx1]; exact List.mem_map.mpr ⟨x, hx, rfl⟩)
      simp [h0, hqhd]
    · have hqhd : ¬ q hd = true := by
        intro hqh
        have h1 := (hq hd (List.mem_cons_self _ _)).mp hqh
        exact hk.1 (by rw [h1]; exact List.mem_map.mpr ⟨rp, hmem2, rfl⟩)
      have hrec := ih rp hmem2 hk.2 (fun x hx => hq x (List.mem_cons_of_mem _ hx))
      simp [hqhd, hrec]

end NugetRs

namespace NugetRs

/-- C6 amended: for every successful `pack` call whose id is a plain
non-empty name without '/', and whose target map has unique keys, each
included target yields exactly one archive entry, at the forward-slash
path `runtimes/{rid}/native/{name}`, with payload byte-identical to the
source file; `{name}` is the id with its `Path::set_extension`-style
trailing extension replaced by the source path's extension when the
source has one (so `{id}{.ext}` for dot-free ids, but the text after the
id's last dot is overwritten when the id contains a dot), and the id's
extension kept when the source has none. -/
theorem pack_lib_entry_paths_amended (fs : FS) (args : NugetPackArgs) (n : Nupkg)
    (h : pack fs args = Except.ok n)
    (hid0 : args.id.data ≠ []) (hid1 : ∀ c ∈ args.id.data, c ≠ '/')
    (hkeys : (args.cargo_libs.map Prod.fst).Nodup) :
    ∀ rid p, (rid, p) ∈ filteredPkgs args.cargo_libs →
      ∃ b, fs p = some b ∧
        Entry.mk (libPathN rid (libFileName args.id p)) (Payload.bytes b) options ∈ n.entries ∧
        n.entries.countP
          (fun e2 => e2.path = libPathN rid (libFileName args.id p)) = 1 := by
  obtain ⟨-, hall, -, -, hent⟩ := pack_ok_elim fs args n h
  intro rid p hmem
  obtain ⟨t, htl, hu, hrt⟩ := mem_filteredPkgs args.cargo_libs rid p hmem
  have hr1 : ∀ c ∈ rid.data, c ≠ '/' := by
    rw [hrt]
    exact (rid_no_slash t hu).2
  have hsome : (fs p).isSome = true := hall (rid, p) hmem
  obtain ⟨b, hb⟩ : ∃ b, fs p = some b := by
    cases hfb : fs p with
    | none => rw [hfb] at hsome; exact absurd hsome (by decide)
    | some b => exact ⟨b, rfl⟩
  have hnorm : libEntryPath args.id rid p = libPathN rid (libFileName args.id p) :=
    libEntryPath_norm args.id rid p hid0 hid1 hr1
  refine ⟨b, hb, ?_, ?_⟩
  · rw [hent]
    refine List.mem_cons_of_mem _ (List.mem_cons_of_mem _ (List.mem_cons_of_mem _ ?_))
    refine List.mem_map.mpr ⟨(rid, p), hmem, ?_⟩
    simp [libEntryOf, hnorm, hb]
  · rw [hent]
    rw [List.countP_cons, List.countP_cons, List.countP_cons, List.countP_map]
    have hne1 : ¬ (("_rels/.rels" : String) = libPathN rid (libFileName args.id p)) := by
      intro he
      exact absurd
        (congrArg (fun s => s.data.head?) he : (some '_' : Option Char) = some 'r')
        (by decide)
    have hne2 :
        ¬ (("[Content_Types].xml" : String) = libPathN rid (libFileName args.id p)) := by
      intro he
      exact absurd
        (congrArg (fun s => s.data.head?) he : (some '[' : Option Char) = some 'r')
        (by decide)
    have hne3 : ¬ (nuspecPathOf args.id = libPathN rid (libFileName args.id p)) := by
      intro he
      apply nuspecPath_no_slash args.id hid0 hid1
      rw [he]
      simp only [libPathN, data_mk]
      exact List.mem_append.mpr (Or.inr (List.mem_cons_self _ _))
    have hcnt : (filteredPkgs args.cargo_libs).countP
        ((fun e2 => decide (e2.path = libPathN rid (libFileName args.id p))) ∘
          libEntryOf fs args.id) = 1 := by
      apply countP_eq_one_keyed _ _ (rid, p) hmem (filteredPkgs_keys_nodup _ hkeys)
      intro x hx
      obtain ⟨t2, ht2, hu2, hr2⟩ := mem_filteredPkgs args.cargo_libs x.1 x.2 hx
      have hx1 : ∀ c ∈ x.1.data, c ≠ '/' := by
        rw [hr2]
        exact (rid_no_slash t2 hu2).2
      constructor
      · intro hqx
        have hpx : libEntryPath args.id x.1 x.2 = libPathN rid (libFileName args.id p) :=
          of_decide_eq_true hqx
        rw [libEntryPath_norm args.id x.1 x.2 hid0 hid1 hx1] at hpx
        exact libPathN_inj _ _ _ _ hx1 hr1 hpx
      · intro hx1eq
        have hxeq : x = (rid, p) := eq_of_same_key x (rid, p) (filteredPkgs args.cargo_libs)
          (filteredPkgs_keys_nodup _ hkeys) hx hmem hx1eq
        rw [hxeq]
        exact decide_eq_true hnorm
    rw [hcnt]
    simp [hne1, hne2, hne3]

/-- C6 amended witness: in the concrete scenario, the windows target
yields exactly one entry at `runtimes/win-x64/native/foo.dll` with the
source file's bytes. -/
theorem pack_lib_entry_paths_amended_witness :
    ∃ b, fsScenario "./foo.dll" = some b ∧
      Entry.mk (libPathN "win-x64" (libFileName argsScenario.id "./foo.dll"))
        (Payload.bytes b) options ∈ nupkgScenario.entries ∧
      nupkgScenario.entries.countP
        (fun e2 => e2.path = libPathN "win-x64" (libFileName argsScenario.id "./foo.dll")) = 1 :=
  pack_lib_entry_paths_amended fsScenario argsScenario nupkgScenario (by decide) (by decide)
    (by decide) (by decide) "win-x64" "./foo.dll" (by decide)

/-- C6 counterexample: with id `foo.bar` (a dot inside the id) and
source `./a.so`, the library entry lands at
`runtimes/win-x64/native/foo.so` — `set_extension` replaced the id's
`.bar` tail — not at the claimed `runtimes/win-x64/native/foo.bar.so`. -/
theorem pack_lib_path_cex :
    (pack fsDotted argsDotted).map (fun n => n.entries.map Entry.path) =
      Except.ok ["_rels/.rels", "[Content_Types].xml", "foo.nuspec",
        "runtimes/win-x64/native/foo.so"] ∧
    ("runtimes/win-x64/native/foo.bar.so" : String) ∉
      ["_rels/.rels", "[Content_Types].xml", "foo.nuspec",
        "runtimes/win-x64/native/foo.so"] :=
  ⟨by decide, by decide⟩

/-- C7 amended: for every successful `pack` call the relationships
descriptor (the first entry) is generated from exactly the manifest's
internal path, and the manifest entry (the third) sits at that path; the
path equals `{id}.nuspec` for every plain dot-free id (non-empty, no '/',
no '.' after the first character), while for an id with a dot
`set_extension` replaces the text after the id's last dot. -/
theorem pack_nuspec_path_amended (fs : FS) (args : NugetPackArgs) (n : Nupkg)
    (h : pack fs args = Except.ok n) :
    n.entries.get? 0 =
      some (Entry.mk "_rels/.rels" (Payload.relsXml (nuspecPathOf args.id)) options) ∧
    (∃ e, n.entries.get? 2 = some e ∧ e.path = nuspecPathOf args.id) ∧
    (args.id.data ≠ [] → (∀ c ∈ args.id.data, c ≠ '/') → '.' ∉ args.id.data.drop 1 →
      nuspecPathOf args.id = args.id ++ ".nuspec") := by
  obtain ⟨-, -, -, -, hent⟩ := pack_ok_elim fs args n h
  refine ⟨by rw [hent]; rfl, ?_, ?_⟩
  · exact ⟨Entry.mk (nuspecPathOf args.id) (Payload.bytes args.spec) options,
      by rw [hent]; rfl, rfl⟩
  · intro h0 h1 h2
    exact nuspecPathOf_no_dot args.id h0 h1 h2

/-- C7 amended witness: the scenario instance. -/
theorem pack_nuspec_path_amended_witness :
    nupkgScenario.entries.get? 0 =
      some (Entry.mk "_rels/.rels" (Payload.relsXml (nuspecPathOf argsScenario.id)) options) ∧
    (∃ e, nupkgScenario.entries.get? 2 = some e ∧ e.path = nuspecPathOf argsScenario.id) ∧
    (argsScenario.id.data ≠ [] → (∀ c ∈ argsScenario.id.data, c ≠ '/') →
      '.' ∉ argsScenario.id.data.drop 1 →
      nuspecPathOf argsScenario.id = argsScenario.id ++ ".nuspec") :=
  pack_nuspec_path_amended fsScenario argsScenario nupkgScenario (by decide)

/-- C7 counterexample: for id `foo.bar` the manifest's internal path is
`foo.nuspec`, not the claimed full-id path `foo.bar.nuspec`. -/
theorem pack_nuspec_path_cex :
    nuspecPathOf "foo.bar" = "foo.nuspec" ∧
    nuspecPathOf "foo.bar" ≠ "foo.bar" ++ ".nuspec" ∧
    (pack fsDotted argsDotted).map (fun n => n.entries.get? 2) =
      Except.ok (some (Entry.mk "foo.nuspec" (Payload.bytes [1]) options)) :=
  ⟨by decide, by decide, by decide⟩

end NugetRs
